import Mathlib

/-!
# Verification of `scripts/gen_metadata.py`

A shallow embedding of the workspace-metadata generator: the JSON values it
manipulates, a model of `json.loads`, the header reader `read_workspace`
(gzip detection, versioned format, legacy fallback), the recursive directory
walk `process_dir`, and the output step of `main`.  Theorems about these
definitions settle the specification's claims.
-/

namespace GenMetadata

/-! ## JSON values

`json.loads` produces values of this shape.  Objects keep their key/value
pairs in insertion order, as Python dicts do.  Arrays and objects are given
by mutually inductive list types so that all functions on `Json` can be
defined by structural recursion. -/

mutual

inductive Json where
  | null
  | bool (b : Bool)
  | num (n : Int)
  | str (s : String)
  | arr (elems : JsonList)
  | obj (kvs : JsonKVList)

inductive JsonList where
  | nil
  | cons (v : Json) (rest : JsonList)

inductive JsonKVList where
  | nil
  | cons (k : String) (v : Json) (rest : JsonKVList)

end

def JsonList.ofList : List Json → JsonList
  | [] => .nil
  | v :: rest => .cons v (JsonList.ofList rest)

def JsonKVList.ofList : List (String × Json) → JsonKVList
  | [] => .nil
  | (k, v) :: rest => .cons k v (JsonKVList.ofList rest)

/-- Assoc-list lookup of a key in a JSON object (`d[k]` read access). -/
def JsonKVList.find : JsonKVList → String → Option Json
  | .nil, _ => none
  | .cons k v rest, key => if k = key then some v else JsonKVList.find rest key

/-- `d[k] = v` on a Python dict: overwrite in place if the key is present,
append at the end otherwise. -/
def JsonKVList.set : JsonKVList → String → Json → JsonKVList
  | .nil, key, val => .cons key val .nil
  | .cons k v rest, key, val =>
      if k = key then .cons k val rest else .cons k v (JsonKVList.set rest key val)

/-- Lookup of a key in a JSON value, when it is an object. -/
def Json.getKey : Json → String → Option Json
  | .obj kvs, key => kvs.find key
  | _, _ => none

/-! ## A model of `json.loads`

A recursive-descent parser for the JSON fragment the repository's files
use: `null`, booleans, integer numerals, strings with the basic escapes,
arrays and objects, with the whitespace characters `json` skips.  Parsing
consumes the whole input (trailing whitespace allowed), as `json.loads`
does; `none` models `json.decoder.JSONDecodeError`. -/

def jsonWs (c : Char) : Bool :=
  c = ' ' || c = '\t' || c = '\n' || c = '\r'

def skipWs : List Char → List Char
  | [] => []
  | c :: cs => if jsonWs c then skipWs cs else c :: cs

def escChar : Char → Option Char
  | '"' => some '"'
  | '\\' => some '\\'
  | '/' => some '/'
  | 'b' => some '\x08'
  | 'f' => some '\x0c'
  | 'n' => some '\n'
  | 'r' => some '\r'
  | 't' => some '\t'
  | _ => none

/-- Parse the remainder of a JSON string literal (the opening quote already
consumed), returning its characters and the rest of the input. -/
def parseStrRest : List Char → Option (List Char × List Char)
  | [] => none
  | '"' :: rest => some ([], rest)
  | '\\' :: e :: rest =>
      match escChar e with
      | none => none
      | some c =>
          match parseStrRest rest with
          | none => none
          | some (s, r) => some (c :: s, r)
  | c :: rest =>
      if c.toNat < 0x20 then none
      else
        match parseStrRest rest with
        | none => none
        | some (s, r) => some (c :: s, r)

def digitsToNat (ds : List Char) : Nat :=
  ds.foldl (fun acc c => 10 * acc + (c.toNat - '0'.toNat)) 0

/-- Parse a JSON natural numeral: `0`, or a nonzero digit followed by
digits (leading zeros rejected, as `json.loads` does). -/
def parseNatNum : List Char → Option (Nat × List Char)
  | '0' :: rest => some (0, rest)
  | c :: rest =>
      if c.isDigit then
        let ds := rest.takeWhile Char.isDigit
        some (digitsToNat (c :: ds), rest.dropWhile Char.isDigit)
      else none
  | [] => none

def parseIntNum : List Char → Option (Int × List Char)
  | '-' :: rest =>
      match parseNatNum rest with
      | none => none
      | some (n, r) => some (-(n : Int), r)
  | cs =>
      match parseNatNum cs with
      | none => none
      | some (n, r) => some ((n : Int), r)

mutual

def parseVal : Nat → List Char → Option (Json × List Char)
  | 0, _ => none
  | Nat.succ fuel, cs =>
      match skipWs cs with
      | 'n' :: 'u' :: 'l' :: 'l' :: rest => some (.null, rest)
      | 't' :: 'r' :: 'u' :: 'e' :: rest => some (.bool true, rest)
      | 'f' :: 'a' :: 'l' :: 's' :: 'e' :: rest => some (.bool false, rest)
      | '"' :: rest =>
          match parseStrRest rest with
          | none => none
          | some (s, r) => some (.str (String.mk s), r)
      | '[' :: rest =>
          match skipWs rest with
          | ']' :: r => some (.arr .nil, r)
          | cs2 =>
              match parseArrItems fuel cs2 with
              | none => none
              | some (vs, r) => some (.arr (JsonList.ofList vs), r)
      | '\x7b' :: rest =>
          match skipWs rest with
          | '\x7d' :: r => some (.obj .nil, r)
          | cs2 =>
              match parseObjItems fuel cs2 with
              | none => none
              | some (kvs, r) => some (.obj (JsonKVList.ofList kvs), r)
      | cs2 => parseIntNum cs2 |>.map (fun (n, r) => (.num n, r))

def parseArrItems : Nat → List Char → Option (List Json × List Char)
  | 0, _ => none
  | Nat.succ fuel, cs =>
      match parseVal fuel cs with
      | none => none
      | some (v, r1) =>
          match skipWs r1 with
          | ',' :: r2 =>
              match parseArrItems fuel r2 with
              | none => none
              | some (vs, r) => some (v :: vs, r)
          | ']' :: r2 => some ([v], r2)
          | _ => none

def parseObjItems : Nat → List Char → Option (List (String × Json) × List Char)
  | 0, _ => none
  | Nat.succ fuel, cs =>
      match cs with
      | '"' :: rest =>
          match parseStrRest rest with
          | none => none
          | some (k, r1) =>
              match skipWs r1 with
              | ':' :: r2 =>
                  match parseVal fuel r2 with
                  | none => none
                  | some (v, r3) =>
                      match skipWs r3 with
                      | ',' :: r4 =>
                          match parseObjItems fuel (skipWs r4) with
                          | none => none
                          | some (kvs, r) => some ((String.mk k, v) :: kvs, r)
                      | '\x7d' :: r4 => some ([(String.mk k, v)], r4)
                      | _ => none
              | _ => none
      | _ => none

end

/-- Model of `json.loads`: parse one JSON document, requiring the whole
input to be consumed up to trailing whitespace.  `none` models a raised
`json.decoder.JSONDecodeError`. -/
def Json.parse (s : String) : Option Json :=
  match parseVal (2 * s.data.length + 2) s.data with
  | none => none
  | some (v, rest) => if skipWs rest = [] then some v else none

/-! ## Python text primitives

`f.readline()` on a text stream returns characters up to and including the
next newline (or the remainder of the stream; the empty string at EOF);
`str.strip()` removes leading and trailing Python whitespace. -/

/-- The characters `str.strip()` removes. -/
def pySpace (c : Char) : Bool :=
  c = ' ' || c = '\t' || c = '\n' || c = '\r' || c = '\x0b' || c = '\x0c'

/-- The characters of one `readline()` call: up to and including the first
newline, or the whole remainder when no newline follows. -/
def takeLine : List Char → List Char
  | [] => []
  | c :: cs => if c = '\n' then [c] else c :: takeLine cs

/-- The stream position after one `readline()` call. -/
def dropLine : List Char → List Char
  | [] => []
  | c :: cs => if c = '\n' then cs else dropLine cs

/-- The first `readline()` result on a freshly opened stream. -/
def firstLine (s : String) : String := String.mk (takeLine s.data)

/-- The second `readline()` result on a freshly opened stream. -/
def secondLine (s : String) : String := String.mk (takeLine (dropLine s.data))

/-- The third `readline()` result on a freshly opened stream. -/
def thirdLine (s : String) : String := String.mk (takeLine (dropLine (dropLine s.data)))

/-- Model of Python `str.strip()`. -/
def pyStrip (s : String) : String :=
  String.mk (((s.data.dropWhile pySpace).reverse.dropWhile pySpace).reverse)

/-- Model of Python `str.endswith`: `full_path.endswith('.grapycal')` holds
exactly when the entry name does (the suffix contains no path separator). -/
def pyEndsWith (s suffix : String) : Bool :=
  suffix.data.isSuffixOf s.data

/-! ## Files on disk

`read_workspace` opens the file twice: once in binary mode to read the two
magic bytes, then either through `gzip.open(path, 'rt')` or through
`open(path, 'r', encoding='utf-8')`.  A `DiskFile` records how the file is
stored together with its logical (decompressed) text content; its byte
sequence is derived from that.  Only the first two bytes of a gzip member
are ever inspected, so the bytes after the gzip magic stand in for the
compressed stream. -/

inductive DiskFile where
  | plain (text : String)
  | gzipped (text : String)

/-- The logical text content of the file (after decompression, for a
gzip-stored file). -/
def DiskFile.content : DiskFile → String
  | .plain t => t
  | .gzipped t => t

/-- UTF-8 encoding of one character (arithmetic formulation). -/
def utf8Bytes (c : Char) : List Nat :=
  let n := c.toNat
  if n < 0x80 then [n]
  else if n < 0x800 then [0xc0 + n / 0x40, 0x80 + n % 0x40]
  else if n < 0x10000 then
    [0xe0 + n / 0x1000, 0x80 + n / 0x40 % 0x40, 0x80 + n % 0x40]
  else
    [0xf0 + n / 0x40000, 0x80 + n / 0x1000 % 0x40, 0x80 + n / 0x40 % 0x40,
      0x80 + n % 0x40]

/-- UTF-8 encoding of a string, as a byte list. -/
def strBytes (s : String) : List Nat :=
  s.data.flatMap utf8Bytes

/-- The gzip magic number, `b'\x1f\x8b'`. -/
def gzipMagic : List Nat := [0x1f, 0x8b]

/-- The raw bytes of the file as stored on disk.  A plain file holds the
UTF-8 encoding of its text; a gzip file starts with the two magic bytes
followed by the compressed stream (never inspected past the magic). -/
def DiskFile.bytes : DiskFile → List Nat
  | .plain t => strBytes t
  | .gzipped t => 0x1f :: 0x8b :: strBytes t

/-- The text stream `read_workspace` ends up reading: the source checks the
first two bytes against the gzip magic and picks `gzip.open` or plain
`open` accordingly.  `none` models a decoding failure of the chosen opener
(`gzip.open` on a non-gzip stream); both `none` branches are unreachable,
as `decodeStream_eq_content` proves. -/
def DiskFile.decodeStream (f : DiskFile) : Option String :=
  if f.bytes.take 2 = gzipMagic then
    match f with
    | .gzipped t => some t
    | .plain _ => none
  else
    match f with
    | .plain t => some t
    | .gzipped _ => none

/-! ## The header reader `read_workspace` -/

/-- The exceptions `read_workspace` and `process_dir` can raise. -/
inductive RWError where
  | jsonDecode
  | typeErr
  | badStream
deriving DecidableEq

/-- The body of `read_workspace` once the text stream is open, translated
from the source: try `version = f.readline().strip()` and
`metadata = json.loads(f.readline())`; on a `JSONDecodeError` rewind and
take the legacy branch (`version = '0.9.0'`, `metadata = {}`, the whole
stream parsed as the payload only when requested); otherwise rewind,
re-read the two header lines and parse line 3 as the payload only when
requested. -/
def read_workspace_text (text : String) (metadata_only : Bool) :
    Except RWError (String × Json × Option Json) :=
  match Json.parse (secondLine text) with
  | none =>
      if metadata_only then .ok ("0.9.0", .obj .nil, none)
      else
        match Json.parse text with
        | some data => .ok ("0.9.0", .obj .nil, some data)
        | none => .error .jsonDecode
  | some metadata =>
      let version := pyStrip (firstLine text)
      if metadata_only then .ok (version, metadata, none)
      else
        match Json.parse (thirdLine text) with
        | some data => .ok (version, metadata, some data)
        | none => .error .jsonDecode

/-- `read_workspace(path, metadata_only)`: detect the encoding from the
first two bytes, open the corresponding text stream, and read the header
(and, when requested, the payload). -/
def read_workspace (file : DiskFile) (metadata_only : Bool) :
    Except RWError (String × Json × Option Json) :=
  match file.decodeStream with
  | some text => read_workspace_text text metadata_only
  | none => .error .badStream

/-! ## The directory walk `process_dir`

A directory's children are modelled as a list of entries, in `os.listdir`
order; an entry is a file (with its on-disk representation) or a
subdirectory.  The mutually inductive list type again keeps all recursion
structural. -/

mutual

inductive FsEntry where
  | file (name : String) (content : DiskFile)
  | dir (name : String) (children : FsList)

inductive FsList where
  | nil
  | cons (e : FsEntry) (rest : FsList)

end

def FsList.append : FsList → FsList → FsList
  | .nil, l => l
  | .cons e rest, l => .cons e (FsList.append rest l)

/-- `e` is one of the children in the listing. -/
def FsList.Mem (e : FsEntry) : FsList → Prop
  | .nil => False
  | .cons x rest => e = x ∨ FsList.Mem e rest

/-- The number of children satisfying `p`. -/
def FsList.countP (p : FsEntry → Bool) : FsList → Nat
  | .nil => 0
  | .cons e rest => (if p e then 1 else 0) + FsList.countP p rest

def FsEntry.isDir : FsEntry → Bool
  | .dir _ _ => true
  | .file _ _ => false

/-- The recognized extension. -/
def grapycalExt : String := ".grapycal"

/-- A non-directory child whose name ends with the recognized extension. -/
def FsEntry.isMatchingFile : FsEntry → Bool
  | .file p _ => pyEndsWith p grapycalExt
  | .dir _ _ => false

/-- The record `process_dir` builds for one directory:
`{'name': ..., 'files': ..., 'dirs': ...}`. -/
def mkDirRecord (name : String) (files folders : List Json) : Json :=
  .obj (.cons "name" (.str name)
    (.cons "files" (.arr (JsonList.ofList files))
      (.cons "dirs" (.arr (JsonList.ofList folders)) .nil)))

/-- `metadata['name'] = p`: a `TypeError` is raised when the value bound to
`metadata` is not a dict. -/
def setName (metadata : Json) (p : String) : Except RWError Json :=
  match metadata with
  | .obj kvs => .ok (.obj (kvs.set "name" (.str p)))
  | _ => .error .typeErr

mutual

/-- The loop body of `process_dir` over `os.listdir(path)`: a subdirectory
yields a record for `folders`, a file ending in `.grapycal` yields a
metadata entry for `files` via `read_workspace(..., metadata_only=True)`
and `metadata['name'] = p`, and any other entry is skipped. -/
def process_entry : FsEntry → Except RWError (Option (Json ⊕ Json))
  | .file p c =>
      if pyEndsWith p grapycalExt then
        match read_workspace c true with
        | .error err => .error err
        | .ok (_, metadata, _) =>
            match setName metadata p with
            | .error err => .error err
            | .ok entry => .ok (some (.inl entry))
      else .ok none
  | .dir dn dc =>
      match process_children dc with
      | .error err => .error err
      | .ok (fs, ds) => .ok (some (.inr (mkDirRecord dn fs ds)))

/-- The `for p in os.listdir(path)` loop: children processed left to right,
file entries collected into `files` and subdirectory records into
`folders`, the first raised exception aborting the whole loop. -/
def process_children : FsList → Except RWError (List Json × List Json)
  | .nil => .ok ([], [])
  | .cons e rest =>
      match process_entry e with
      | .error err => .error err
      | .ok none => process_children rest
      | .ok (some (.inl entry)) =>
          match process_children rest with
          | .error err => .error err
          | .ok (fs, ds) => .ok (entry :: fs, ds)
      | .ok (some (.inr record)) =>
          match process_children rest with
          | .error err => .error err
          | .ok (fs, ds) => .ok (fs, record :: ds)

end

/-- `process_dir(path)`: process the children and assemble
`{'name': os.path.basename(path), 'files': files, 'dirs': folders}`. -/
def process_dir (name : String) (children : FsList) : Except RWError Json :=
  match process_children children with
  | .error err => .error err
  | .ok (fs, ds) => .ok (mkDirRecord name fs ds)

/-- The document `main` writes to `metadata.json`, if any: `main` runs
`process_dir` on the `files` directory and only then opens the output file
and dumps the result, so a raised exception means nothing is written. -/
def main_output (workspaces : FsList) : Option Json :=
  match process_dir "files" workspaces with
  | .ok metadata => some metadata
  | .error _ => none

/-! ## Header-reader failure, over a whole tree -/

mutual

/-- Whether processing this child raises: for a matching file, exactly when
the metadata-only read does not produce a dict metadata value (the
`metadata['name'] = p` assignment then raises `TypeError`); for a
subdirectory, whether any of its descendants does. -/
def entryBad : FsEntry → Bool
  | .file p c =>
      pyEndsWith p grapycalExt &&
        (match read_workspace c true with
         | .ok (_, .obj _, _) => false
         | _ => true)
  | .dir _ dc => childrenBad dc

/-- Whether processing any child of the listing raises. -/
def childrenBad : FsList → Bool
  | .nil => false
  | .cons e rest => entryBad e || childrenBad rest

end

/-! ## Lemmas -/

/-- A UTF-8 encoded character is its own code point below `0x80`, and
otherwise starts with a lead byte at or above `0xc0`. -/
theorem utf8Bytes_shape (c : Char) :
    (c.toNat < 0x80 ∧ utf8Bytes c = [c.toNat]) ∨
    (∃ b l, utf8Bytes c = b :: l ∧ 0xc0 ≤ b) := by
  unfold utf8Bytes
  by_cases h1 : c.toNat < 0x80
  · exact Or.inl ⟨h1, by simp [h1]⟩
  · right
    by_cases h2 : c.toNat < 0x800
    · refine ⟨0xc0 + c.toNat / 0x40, [0x80 + c.toNat % 0x40], ?_, by omega⟩
      simp [h1, h2]
    · by_cases h3 : c.toNat < 0x10000
      · refine ⟨0xe0 + c.toNat / 0x1000,
          [0x80 + c.toNat / 0x40 % 0x40, 0x80 + c.toNat % 0x40], ?_, by omega⟩
        simp [h1, h2, h3]
      · refine ⟨0xf0 + c.toNat / 0x40000,
          [0x80 + c.toNat / 0x1000 % 0x40, 0x80 + c.toNat / 0x40 % 0x40,
            0x80 + c.toNat % 0x40], ?_, by omega⟩
        simp [h1, h2, h3]

/-- No UTF-8 encoded text starts with the two gzip magic bytes: a lead
byte `0x1f` is the single-byte character `U+001F`, and no following byte
can be `0x8b` (continuation-range bytes never lead an encoded character). -/
theorem flatMap_utf8_take_two_ne_magic (cs : List Char) :
    (cs.flatMap utf8Bytes).take 2 ≠ gzipMagic := by
  match cs with
  | [] => simp [gzipMagic]
  | c :: rest =>
    rw [List.flatMap_cons]
    rcases utf8Bytes_shape c with ⟨hlt, heq⟩ | ⟨b, l, heq, hge⟩
    · rw [heq]
      intro hcontra
      simp only [List.cons_append, List.nil_append, List.take_succ_cons,
        gzipMagic, List.cons.injEq] at hcontra
      obtain ⟨h1f, hrest⟩ := hcontra
      match rest with
      | [] => simp at hrest
      | c2 :: rest2 =>
        rw [List.flatMap_cons] at hrest
        rcases utf8Bytes_shape c2 with ⟨hlt2, heq2⟩ | ⟨b2, l2, heq2, hge2⟩
        · rw [heq2] at hrest
          simp only [List.cons_append, List.take_succ_cons, List.take_zero,
            List.cons.injEq] at hrest
          omega
        · rw [heq2] at hrest
          simp only [List.cons_append, List.take_succ_cons, List.take_zero,
            List.cons.injEq] at hrest
          omega
    · rw [heq]
      intro hcontra
      simp only [List.cons_append, List.take_succ_cons, gzipMagic,
        List.cons.injEq] at hcontra
      omega

/-- The magic-byte check selects the gzip opener exactly for gzip-stored
files, and either opener yields the file's logical text content. -/
theorem decodeStream_eq_content (f : DiskFile) :
    f.decodeStream = some f.content := by
  match f with
  | .plain t =>
    have h := flatMap_utf8_take_two_ne_magic t.data
    simp [DiskFile.decodeStream, DiskFile.bytes, DiskFile.content, strBytes, h]
  | .gzipped t =>
    simp [DiskFile.decodeStream, DiskFile.bytes, DiskFile.content, gzipMagic]

/-- `read_workspace` is the text-level reader applied to the logical
content, whatever the on-disk encoding. -/
theorem read_workspace_eq_text (f : DiskFile) (metadata_only : Bool) :
    read_workspace f metadata_only =
      read_workspace_text f.content metadata_only := by
  unfold read_workspace
  rw [decodeStream_eq_content]

/-- In metadata-only mode the reader always succeeds, with no payload. -/
theorem read_meta_always_ok (text : String) :
    ∃ v m, read_workspace_text text true = .ok (v, m, none) := by
  unfold read_workspace_text
  match Json.parse (secondLine text) with
  | none => exact ⟨_, _, rfl⟩
  | some metadata => exact ⟨_, _, rfl⟩

theorem takeLine_append {xs : List Char} (ys : List Char) (h : '\n' ∉ xs) :
    takeLine (xs ++ '\n' :: ys) = xs ++ ['\n'] := by
  induction xs with
  | nil => simp [takeLine]
  | cons c cs ih =>
    simp only [List.mem_cons, not_or] at h
    simp only [List.cons_append, takeLine, if_neg (Ne.symm h.1), List.append_eq]
    rw [ih h.2]

theorem dropLine_append {xs : List Char} (ys : List Char) (h : '\n' ∉ xs) :
    dropLine (xs ++ '\n' :: ys) = ys := by
  induction xs with
  | nil => simp [dropLine]
  | cons c cs ih =>
    simp only [List.mem_cons, not_or] at h
    simp only [List.cons_append, dropLine, if_neg (Ne.symm h.1), List.append_eq]
    exact ih h.2

/-- Metadata-only reads always succeed (on any file whatever): the only
`JSONDecodeError` the versioned attempt can raise is caught and turned
into the legacy fallback, and neither fallback nor versioned path parses
anything further when the payload is not requested. -/
theorem read_ws_meta_ok (c : DiskFile) :
    ∃ v m, read_workspace c true = .ok (v, m, none) := by
  rw [read_workspace_eq_text]
  exact read_meta_always_ok _

/-- Full characterization of a successful `process_dir` loop: one `files`
entry per child whose name has the recognized extension (each the result
of the metadata-only read plus the name assignment), one `dirs` record per
child directory, nothing else. -/
theorem process_children_spec (children : FsList) :
    ∀ fs ds, process_children children = .ok (fs, ds) →
      fs.length = children.countP FsEntry.isMatchingFile ∧
      ds.length = children.countP FsEntry.isDir ∧
      (∀ j ∈ fs, ∃ p c, FsList.Mem (.file p c) children ∧
          pyEndsWith p grapycalExt = true ∧
          ∃ v m, read_workspace c true = .ok (v, m, none) ∧ setName m p = .ok j) ∧
      (∀ dn dc, FsList.Mem (.dir dn dc) children →
          ∃ rec, process_dir dn dc = .ok rec ∧ rec ∈ ds) := by
  match children with
  | .nil =>
    intro fs ds h
    simp only [process_children, Except.ok.injEq, Prod.mk.injEq] at h
    obtain ⟨rfl, rfl⟩ := h
    refine ⟨rfl, rfl, by simp, ?_⟩
    intro dn dc hmem
    exact absurd hmem (by simp [FsList.Mem])
  | .cons e rest =>
    intro fs ds h
    have ih := process_children_spec rest
    match e with
    | .file p c =>
      by_cases hmatch : pyEndsWith p grapycalExt = true
      · obtain ⟨v, m, hr⟩ := read_ws_meta_ok c
        unfold process_children process_entry at h
        rw [if_pos hmatch] at h
        simp only [hr] at h
        match hsn : setName m p with
        | .error err =>
          simp only [hsn] at h
          exact Except.noConfusion h
        | .ok entry =>
          simp only [hsn] at h
          match hrest : process_children rest with
          | .error err =>
            simp only [hrest] at h
            exact Except.noConfusion h
          | .ok (fs', ds') =>
            simp only [hrest] at h
            simp only [Except.ok.injEq, Prod.mk.injEq] at h
            obtain ⟨rfl, rfl⟩ := h
            obtain ⟨hlen1, hlen2, hfiles, hdirs⟩ := ih fs' ds' hrest
            refine ⟨?_, ?_, ?_, ?_⟩
            · simp only [List.length_cons, FsList.countP, FsEntry.isMatchingFile,
                hmatch, if_pos, hlen1]
              omega
            · simp [FsList.countP, FsEntry.isDir, hlen2]
            · intro j hj
              rcases List.mem_cons.mp hj with rfl | hj'
              · exact ⟨p, c, Or.inl rfl, hmatch, v, m, hr, hsn⟩
              · obtain ⟨p', c', hmem, hm, v', m', hr', hsn'⟩ := hfiles j hj'
                exact ⟨p', c', Or.inr hmem, hm, v', m', hr', hsn'⟩
            · intro dn dc hmem
              rcases hmem with heq | hmem'
              · exact absurd heq (by simp)
              · exact hdirs dn dc hmem'
      · unfold process_children process_entry at h
        rw [if_neg hmatch] at h
        obtain ⟨hlen1, hlen2, hfiles, hdirs⟩ := ih fs ds h
        refine ⟨?_, ?_, ?_, ?_⟩
        · simp only [FsList.countP, FsEntry.isMatchingFile]
          rw [if_neg (by simpa using hmatch)]
          simpa using hlen1
        · simp [FsList.countP, FsEntry.isDir, hlen2]
        · intro j hj
          obtain ⟨p', c', hmem, hm, v', m', hr', hsn'⟩ := hfiles j hj
          exact ⟨p', c', Or.inr hmem, hm, v', m', hr', hsn'⟩
        · intro dn dc hmem
          rcases hmem with heq | hmem'
          · exact absurd heq (by simp)
          · exact hdirs dn dc hmem'
    | .dir dn dc =>
      unfold process_children process_entry at h
      match hdc : process_children dc with
      | .error err =>
        simp only [hdc] at h
        exact Except.noConfusion h
      | .ok (fsd, dsd) =>
        simp only [hdc] at h
        match hrest : process_children rest with
        | .error err =>
          simp only [hrest] at h
          exact Except.noConfusion h
        | .ok (fs', ds') =>
          simp only [hrest] at h
          simp only [Except.ok.injEq, Prod.mk.injEq] at h
          obtain ⟨rfl, rfl⟩ := h
          obtain ⟨hlen1, hlen2, hfiles, hdirs⟩ := ih fs' ds' hrest
          refine ⟨?_, ?_, ?_, ?_⟩
          · simp [FsList.countP, FsEntry.isMatchingFile, hlen1]
          · simp only [List.length_cons, FsList.countP, FsEntry.isDir, hlen2,
              if_pos]
            omega
          · intro j hj
            obtain ⟨p', c', hmem, hm, v', m', hr', hsn'⟩ := hfiles j hj
            exact ⟨p', c', Or.inr hmem, hm, v', m', hr', hsn'⟩
          · intro dn' dc' hmem
            rcases hmem with heq | hmem'
            · cases heq
              exact ⟨_, by unfold process_dir; simp only [hdc], List.mem_cons_self _ _⟩
            · obtain ⟨rec, hrec, hrecmem⟩ := hdirs dn' dc' hmem'
              exact ⟨rec, hrec, List.mem_cons_of_mem _ hrecmem⟩
termination_by sizeOf children

/-- Dropping a non-matching file from a listing leaves the loop's result
unchanged: such an entry is skipped entirely. -/
theorem process_children_skip (pre post : FsList) (p : String) (c : DiskFile)
    (h : pyEndsWith p grapycalExt = false) :
    process_children (pre.append (.cons (.file p c) post)) =
      process_children (pre.append post) := by
  match pre with
  | .nil =>
    simp only [FsList.append]
    conv_lhs => unfold process_children process_entry
    rw [if_neg (by simp [h])]
  | .cons e rest =>
    have ih := process_children_skip rest post p c h
    simp only [FsList.append]
    unfold process_children
    rw [ih]
termination_by sizeOf pre

mutual

/-- Processing one child raises an exception exactly when `entryBad` says
so. -/
theorem process_entry_ok_iff (e : FsEntry) :
    (∃ r, process_entry e = .ok r) ↔ entryBad e = false := by
  match e with
  | .file p c =>
    obtain ⟨v, m, hr⟩ := read_ws_meta_ok c
    unfold process_entry entryBad
    by_cases hm : pyEndsWith p grapycalExt = true
    · rw [if_pos hm]
      simp only [hr, hm, Bool.true_and]
      match m with
      | .obj kvs => simp [setName]
      | .null => simp [setName]
      | .bool b => simp [setName]
      | .num n => simp [setName]
      | .str s => simp [setName]
      | .arr l => simp [setName]
    · rw [if_neg hm]
      simp only [Bool.not_eq_true] at hm
      simp [hm]
  | .dir dn dc =>
    have ih := process_children_ok_iff dc
    unfold process_entry entryBad
    match hdc : process_children dc with
    | .error err =>
      rw [hdc] at ih
      simp only [hdc]
      simp only [show ¬∃ r, (Except.error err : Except RWError _) = .ok r by simp,
        false_iff, Bool.not_eq_false] at ih ⊢
      simp [ih]
    | .ok (fsd, dsd) =>
      rw [hdc] at ih
      simp only [hdc]
      simp only [show ∃ r, (Except.ok (fsd, dsd) : Except RWError _) = .ok r from ⟨_, rfl⟩,
        true_iff] at ih
      simp [ih]

/-- The loop over a listing raises an exception exactly when `childrenBad`
says so. -/
theorem process_children_ok_iff (l : FsList) :
    (∃ r, process_children l = .ok r) ↔ childrenBad l = false := by
  match l with
  | .nil => simp [process_children, childrenBad]
  | .cons e rest =>
    have ihe := process_entry_ok_iff e
    have ihr := process_children_ok_iff rest
    unfold process_children childrenBad
    match hpe : process_entry e with
    | .error err =>
      rw [hpe] at ihe
      simp only [show ¬∃ r, (Except.error err : Except RWError _) = .ok r by simp,
        false_iff, Bool.not_eq_false] at ihe
      simp [ihe]
    | .ok r =>
      rw [hpe] at ihe
      simp only [show ∃ x, (Except.ok r : Except RWError _) = .ok x from ⟨_, rfl⟩,
        true_iff] at ihe
      rw [ihe, Bool.false_or]
      match r with
      | none =>
        exact ihr
      | some (.inl entry) =>
        match hrest : process_children rest with
        | .error err => rw [hrest] at ihr; simp at ihr; simp [ihr]
        | .ok (fs', ds') => rw [hrest] at ihr; simp at ihr; simp [ihr]
      | some (.inr record) =>
        match hrest : process_children rest with
        | .error err => rw [hrest] at ihr; simp at ihr; simp [ihr]
        | .ok (fs', ds') => rw [hrest] at ihr; simp at ihr; simp [ihr]

end

/-- A listing with no subdirectories and no matching files processes to a
pair of empty lists. -/
theorem process_children_empty (l : FsList)
    (hd : l.countP FsEntry.isDir = 0)
    (hm : l.countP FsEntry.isMatchingFile = 0) :
    process_children l = .ok ([], []) := by
  match l with
  | .nil => rfl
  | .cons e rest =>
    simp only [FsList.countP] at hd hm
    match e with
    | .file p c =>
      have hlt : pyEndsWith p grapycalExt = false := by
        by_contra hc
        simp only [Bool.not_eq_false] at hc
        simp [FsEntry.isMatchingFile, hc] at hm
      have ih := process_children_empty rest
        (by simpa [FsEntry.isDir] using hd)
        (by simpa [FsEntry.isMatchingFile, hlt] using hm)
      unfold process_children process_entry
      rw [if_neg (by simp [hlt])]
      exact ih
    | .dir dn dc =>
      simp [FsEntry.isDir] at hd
termination_by sizeOf l

theorem data_newline : ("\n" : String).data = ['\n'] := rfl

theorem data_mkText (l1 l2 r : String) :
    (l1 ++ "\n" ++ l2 ++ "\n" ++ r).data =
      l1.data ++ '\n' :: (l2.data ++ '\n' :: r.data) := by
  simp [String.data_append, data_newline]

theorem firstLine_mkText (l1 l2 r : String) (h1 : '\n' ∉ l1.data) :
    firstLine (l1 ++ "\n" ++ l2 ++ "\n" ++ r) = l1 ++ "\n" := by
  unfold firstLine
  rw [data_mkText, takeLine_append _ h1]
  exact String.ext (by simp [String.data_append, data_newline])

theorem secondLine_mkText (l1 l2 r : String) (h1 : '\n' ∉ l1.data)
    (h2 : '\n' ∉ l2.data) :
    secondLine (l1 ++ "\n" ++ l2 ++ "\n" ++ r) = l2 ++ "\n" := by
  unfold secondLine
  rw [data_mkText, dropLine_append _ h1, takeLine_append _ h2]
  exact String.ext (by simp [String.data_append, data_newline])

/-! ## Claims -/

/-- C1: the code drops the version.  Evaluating the scan on the spec's own
scenario (a versioned file whose header carries `extensions`) shows the
reader does extract version `0.9.0`, but `process_dir` discards it: the
resulting file entry holds only the header fields plus `name`, and has no
`version` key at all — contradicting the module docstring and the spec's
expected output. -/
theorem version_dropped_from_entry :
    read_workspace (.plain "0.9.0\n\x7b\"extensions\":[\"grapycal_torch\"]\x7d\n\x7b\x7d\n") true =
      .ok ("0.9.0",
        .obj (.cons "extensions" (.arr (.cons (.str "grapycal_torch") .nil)) .nil),
        none) ∧
    process_dir "ws"
      (FsList.cons (.file "a.grapycal"
        (.plain "0.9.0\n\x7b\"extensions\":[\"grapycal_torch\"]\x7d\n\x7b\x7d\n")) .nil) =
      .ok (mkDirRecord "ws"
        [.obj (.cons "extensions" (.arr (.cons (.str "grapycal_torch") .nil))
          (.cons "name" (.str "a.grapycal") .nil))]
        []) ∧
    Json.getKey
      (.obj (.cons "extensions" (.arr (.cons (.str "grapycal_torch") .nil))
        (.cons "name" (.str "a.grapycal") .nil))) "version" = none :=
  ⟨rfl, rfl, rfl⟩

/-- C2 counterexample: a legacy-format file (its entire content is the
single JSON value `[1]`, spread over three lines, with no header) whose
second line happens to parse as JSON.  `read_header` takes the versioned
path on it and returns version `"["` with metadata `1`, not `"0.9.0"` with
`{}`. -/
theorem legacy_header_counterexample :
    Json.parse "[\n1\n]" = some (.arr (.cons (.num 1) .nil)) ∧
    read_workspace (.plain "[\n1\n]") true ≠ .ok ("0.9.0", .obj .nil, none) := by
  refine ⟨rfl, ?_⟩
  intro h
  have h1 : ("[" : String) = "0.9.0" :=
    congrArg (fun x => match x with | Except.ok (v, _, _) => v | Except.error _ => "") h
  exact absurd h1 (by decide)

/-- C2 (amended): for every legacy-format file whose second line does not
itself parse as JSON — in particular every single-line legacy file —
`read_header` returns version `"0.9.0"` and an empty metadata object, and
when the payload is requested it returns the whole content parsed as one
JSON document. -/
theorem legacy_read_full (f : DiskFile) (d : Json)
    (h2 : Json.parse (secondLine f.content) = none)
    (hd : Json.parse f.content = some d) :
    read_workspace f true = .ok ("0.9.0", .obj .nil, none) ∧
    read_workspace f false = .ok ("0.9.0", .obj .nil, some d) := by
  rw [read_workspace_eq_text, read_workspace_eq_text]
  unfold read_workspace_text
  constructor
  · simp [h2]
  · simp [h2, hd]

theorem legacy_read_full_witness :
    Json.parse (secondLine (DiskFile.plain "\x7b\"foo\":1\x7d").content) = none ∧
    Json.parse (DiskFile.plain "\x7b\"foo\":1\x7d").content =
      some (.obj (.cons "foo" (.num 1) .nil)) ∧
    read_workspace (.plain "\x7b\"foo\":1\x7d") false =
      .ok ("0.9.0", .obj .nil, some (.obj (.cons "foo" (.num 1) .nil))) :=
  ⟨rfl, rfl,
    (legacy_read_full (DiskFile.plain "\x7b\"foo\":1\x7d")
      (.obj (.cons "foo" (.num 1) .nil)) rfl rfl).2⟩

/-- C3: on any file (plain or gzip-stored) whose second line parses as
JSON, `read_header` returns exactly the whitespace-stripped first line as
the version and exactly the parsed second line as the metadata, whatever
the rest of the file contains. -/
theorem versioned_header_exact (f : DiskFile) (m : Json)
    (h : Json.parse (secondLine f.content) = some m) :
    read_workspace f true = .ok (pyStrip (firstLine f.content), m, none) := by
  rw [read_workspace_eq_text]
  unfold read_workspace_text
  simp [h]

theorem versioned_header_exact_witness :
    Json.parse (secondLine (DiskFile.gzipped "0.9.0\n\x7b\x7d\n\x7bbad\n").content) =
      some (.obj .nil) ∧
    read_workspace (.gzipped "0.9.0\n\x7b\x7d\n\x7bbad\n") true =
      .ok ("0.9.0", .obj .nil, none) :=
  ⟨rfl, versioned_header_exact _ _ rfl⟩

/-- C4: in metadata-only mode the payload is never touched.  On a
versioned file the result is the same whatever stands on the third line
(malformed JSON included), the payload slot of the result is `none`, and
on the legacy path nothing beyond the two header lines is parsed either:
the call succeeds even when the whole content is unparseable. -/
theorem metadata_only_ignores_payload (l1 l2 r r2 : String) (m : Json)
    (h1 : '\n' ∉ l1.data) (h2 : '\n' ∉ l2.data)
    (hm : Json.parse (l2 ++ "\n") = some m) :
    read_workspace_text (l1 ++ "\n" ++ l2 ++ "\n" ++ r) true =
      .ok (pyStrip (l1 ++ "\n"), m, none) ∧
    read_workspace_text (l1 ++ "\n" ++ l2 ++ "\n" ++ r) true =
      read_workspace_text (l1 ++ "\n" ++ l2 ++ "\n" ++ r2) true ∧
    (∀ t, Json.parse (secondLine t) = none →
      read_workspace_text t true = .ok ("0.9.0", .obj .nil, none)) := by
  have key : ∀ s : String,
      read_workspace_text (l1 ++ "\n" ++ l2 ++ "\n" ++ s) true =
        .ok (pyStrip (l1 ++ "\n"), m, none) := by
    intro s
    unfold read_workspace_text
    rw [secondLine_mkText l1 l2 s h1 h2, firstLine_mkText l1 l2 s h1]
    simp [hm]
  refine ⟨key r, (key r).trans (key r2).symm, ?_⟩
  intro t ht
  unfold read_workspace_text
  simp [ht]

theorem metadata_only_ignores_payload_witness :
    read_workspace_text ("0.9.0" ++ "\n" ++ "\x7b\x7d" ++ "\n" ++ "\x7bbad") true =
      read_workspace_text ("0.9.0" ++ "\n" ++ "\x7b\x7d" ++ "\n" ++ "null") true :=
  (metadata_only_ignores_payload "0.9.0" "\x7b\x7d" "\x7bbad" "null" (.obj .nil)
    (by decide) (by decide) rfl).2.1

/-- C5: gzip handling is decided by the two magic bytes alone.  The reader
always processes the logical text content; the magic check selects the
gzip opener exactly for gzip-stored files (a valid UTF-8 text can never
start with `1F 8B`); and a gzip file behaves identically to a plain file
with the same decompressed content.  The file's name never enters
`read_workspace` at all. -/
theorem gzip_detection_two_bytes (f : DiskFile) (mo : Bool) :
    read_workspace f mo = read_workspace_text f.content mo ∧
    (f.bytes.take 2 = gzipMagic ↔ f = .gzipped f.content) ∧
    read_workspace (.gzipped f.content) mo = read_workspace (.plain f.content) mo := by
  refine ⟨read_workspace_eq_text f mo, ?_, ?_⟩
  · match f with
    | .plain t =>
      simp only [DiskFile.bytes, DiskFile.content]
      constructor
      · intro h
        exact absurd h (by simpa [strBytes] using flatMap_utf8_take_two_ne_magic t.data)
      · intro h
        exact absurd h (by simp)
    | .gzipped t =>
      simp [DiskFile.bytes, DiskFile.content, gzipMagic]
  · rw [read_workspace_eq_text, read_workspace_eq_text]
    rfl

/-- C6: the legacy fallback triggers exactly on a JSON-decode failure of
line 2, never on anything about line 1 (which is only stripped, never
validated); and the JSON failures outside the guarded header attempt — a
legacy whole-content parse or a versioned line-3 parse, both reachable
only when the payload is requested — propagate as errors instead of
falling back. -/
theorem legacy_fallback_iff (t : String) :
    (Json.parse (secondLine t) = none →
      read_workspace_text t true = .ok ("0.9.0", .obj .nil, none)) ∧
    (∀ m, Json.parse (secondLine t) = some m →
      read_workspace_text t true = .ok (pyStrip (firstLine t), m, none)) ∧
    (Json.parse (secondLine t) = none → Json.parse t = none →
      read_workspace_text t false = .error .jsonDecode) ∧
    (∀ m, Json.parse (secondLine t) = some m → Json.parse (thirdLine t) = none →
      read_workspace_text t false = .error .jsonDecode) := by
  refine ⟨?_, ?_, ?_, ?_⟩ <;> unfold read_workspace_text
  · intro h
    simp [h]
  · intro m h
    simp [h]
  · intro h hall
    simp [h, hall]
  · intro m h h3
    simp [h, h3]

theorem legacy_fallback_iff_witness :
    read_workspace_text "v\n\x7bbad\n" true = .ok ("0.9.0", .obj .nil, none) ∧
    read_workspace_text "0.9.0\n\x7b\x7d\n\x7bbad\n" false = .error .jsonDecode :=
  ⟨(legacy_fallback_iff "v\n\x7bbad\n").1 rfl,
   (legacy_fallback_iff "0.9.0\n\x7b\x7d\n\x7bbad\n").2.2.2 (.obj .nil) rfl rfl⟩

/-- C7: a successful walk puts into `files` only entries produced from
children whose name ends in `.grapycal` (each the reader's metadata with
the name assigned); every child directory contributes its own record to
`dirs`; and removing a non-matching file from a listing leaves the walk's
result untouched — such entries are ignored entirely. -/
theorem files_only_matching (children : FsList) :
    (∀ fs ds, process_children children = .ok (fs, ds) →
      (∀ j ∈ fs, ∃ p c, FsList.Mem (.file p c) children ∧
          pyEndsWith p grapycalExt = true ∧
          ∃ v m, read_workspace c true = .ok (v, m, none) ∧ setName m p = .ok j) ∧
      (∀ dn dc, FsList.Mem (.dir dn dc) children →
          ∃ rec, process_dir dn dc = .ok rec ∧ rec ∈ ds)) ∧
    (∀ (pre post : FsList) (p : String) (c : DiskFile),
        children = FsList.append pre (.cons (.file p c) post) →
        pyEndsWith p grapycalExt = false →
        process_children children = process_children (FsList.append pre post)) := by
  constructor
  · intro fs ds h
    obtain ⟨_, _, hfiles, hdirs⟩ := process_children_spec children fs ds h
    exact ⟨hfiles, hdirs⟩
  · intro pre post p c hch hne
    rw [hch]
    exact process_children_skip pre post p c hne

theorem files_only_matching_witness :
    process_children
      (FsList.cons (.file "a.grapycal" (.plain "0.9.0\n\x7b\x7d\n\x7b\x7d\n"))
        (FsList.cons (.file "notes.txt" (.plain "hello"))
          (FsList.cons (.dir "sub" .nil) .nil))) =
      .ok ([.obj (.cons "name" (.str "a.grapycal") .nil)], [mkDirRecord "sub" [] []]) ∧
    (∃ rec, process_dir "sub" .nil = .ok rec ∧ rec ∈ [mkDirRecord "sub" [] []]) :=
  ⟨rfl,
   ((files_only_matching
      (FsList.cons (.file "a.grapycal" (.plain "0.9.0\n\x7b\x7d\n\x7b\x7d\n"))
        (FsList.cons (.file "notes.txt" (.plain "hello"))
          (FsList.cons (.dir "sub" .nil) .nil)))).1
      [.obj (.cons "name" (.str "a.grapycal") .nil)] [mkDirRecord "sub" [] []] rfl).2
      "sub" .nil (by exact Or.inr (Or.inr (Or.inl rfl)))⟩

/-- C8 counterexample: a corrupted `.grapycal` file (neither a valid
versioned header — its line 2 is not JSON — nor a standalone JSON
document) does not abort the scan.  In metadata-only mode the reader's
legacy fallback swallows it, the walk succeeds, and `main` writes an
output document containing an entry for the corrupt file. -/
theorem corrupted_file_scan_counterexample :
    Json.parse (secondLine "corrupted garbage\n???!\n") = none ∧
    Json.parse "corrupted garbage\n???!\n" = none ∧
    main_output (.cons (.file "bad.grapycal" (.plain "corrupted garbage\n???!\n")) .nil) =
      some (mkDirRecord "files" [.obj (.cons "name" (.str "bad.grapycal") .nil)] []) :=
  ⟨rfl, rfl, rfl⟩

/-- C8 (amended): in metadata-only scanning the reader never raises a JSON
parse error, so a scan aborts exactly when some matching file's second
line parses as JSON but not as a JSON object (the `metadata['name'] = p`
assignment then raises `TypeError`), as captured by `childrenBad`; when
that happens `process_dir` returns the error, no record is produced, and
`main` writes no output document. -/
theorem scan_abort_iff (children : FsList) :
    (∀ name, (∃ err, process_dir name children = .error err) ↔
      childrenBad children = true) ∧
    (main_output children = none ↔ childrenBad children = true) := by
  have h := process_children_ok_iff children
  constructor
  · intro name
    unfold process_dir
    match hpc : process_children children with
    | .error err =>
      rw [hpc] at h
      have hbad : childrenBad children = true := by
        cases hb : childrenBad children with
        | false => exact absurd (h.mpr hb) (by simp)
        | true => rfl
      simp [hbad]
    | .ok fsds =>
      rw [hpc] at h
      have hgood : childrenBad children = false := h.mp ⟨_, rfl⟩
      simp [hgood]
  · unfold main_output process_dir
    match hpc : process_children children with
    | .error err =>
      rw [hpc] at h
      have hbad : childrenBad children = true := by
        cases hb : childrenBad children with
        | false => exact absurd (h.mpr hb) (by simp)
        | true => rfl
      simp [hbad]
    | .ok fsds =>
      rw [hpc] at h
      have hgood : childrenBad children = false := h.mp ⟨_, rfl⟩
      simp [hgood]

theorem scan_abort_iff_witness :
    childrenBad (FsList.cons (.file "bad.grapycal" (.plain "x\n1\n")) .nil) = true ∧
    main_output (FsList.cons (.file "bad.grapycal" (.plain "x\n1\n")) .nil) = none :=
  ⟨rfl, (scan_abort_iff _).2.mpr rfl⟩

/-- C9 counterexample: a gzip-compressed legacy-format file whose
decompressed content is the multi-line JSON value `[1]`.  Its bytes start
with the gzip magic and it carries no header, yet `read_header` returns
version `"["` and metadata `1`, not `"0.9.0"` and `{}` — the same failure
as in the plain-text case. -/
theorem gzip_legacy_counterexample :
    Json.parse "[\n1\n]" = some (.arr (.cons (.num 1) .nil)) ∧
    (DiskFile.gzipped "[\n1\n]").bytes.take 2 = gzipMagic ∧
    read_workspace (.gzipped "[\n1\n]") true ≠ .ok ("0.9.0", .obj .nil, none) := by
  refine ⟨rfl, rfl, ?_⟩
  intro h
  have h1 : ("[" : String) = "0.9.0" :=
    congrArg (fun x => match x with | Except.ok (v, _, _) => v | Except.error _ => "") h
  exact absurd h1 (by decide)

/-- C9 (amended): compression detection is orthogonal to the
versioned-versus-legacy decision — a gzip-stored file behaves exactly like
a plain file with the same decompressed content — so a gzip legacy file
whose second line does not parse as JSON yields version `"0.9.0"` and
empty metadata, like its plain-text counterpart. -/
theorem gzip_legacy_orthogonal (t : String)
    (h : Json.parse (secondLine t) = none) :
    read_workspace (.gzipped t) true = .ok ("0.9.0", .obj .nil, none) ∧
    read_workspace (.gzipped t) true = read_workspace (.plain t) true := by
  constructor
  · rw [read_workspace_eq_text]
    unfold read_workspace_text
    simp only [DiskFile.content]
    simp [h]
  · rw [read_workspace_eq_text, read_workspace_eq_text]
    rfl

theorem gzip_legacy_orthogonal_witness :
    Json.parse (secondLine "\x7b\"a\":2\x7d") = none ∧
    read_workspace (.gzipped "\x7b\"a\":2\x7d") true =
      .ok ("0.9.0", .obj .nil, none) :=
  ⟨rfl, (gzip_legacy_orthogonal "\x7b\"a\":2\x7d" rfl).1⟩

/-- C10: the walk is total (all the processing functions here are
structurally recursive, so termination is by construction); a successful
loop yields exactly one `files` entry per matching file and exactly one
`dirs` record per child directory; and a directory with no matching files
and no subdirectories yields a record whose `files` and `dirs` fields are
present as explicit empty lists. -/
theorem walk_structure (name : String) (children : FsList) :
    (children.countP FsEntry.isDir = 0 →
      children.countP FsEntry.isMatchingFile = 0 →
      process_dir name children = .ok (mkDirRecord name [] [])) ∧
    (∀ fs ds, process_children children = .ok (fs, ds) →
      fs.length = children.countP FsEntry.isMatchingFile ∧
      ds.length = children.countP FsEntry.isDir) := by
  constructor
  · intro hd hm
    unfold process_dir
    simp only [process_children_empty children hd hm]
  · intro fs ds h
    obtain ⟨hl1, hl2, _, _⟩ := process_children_spec children fs ds h
    exact ⟨hl1, hl2⟩

theorem walk_structure_witness :
    process_dir "ws" (FsList.cons (.file "notes.txt" (.plain "hello")) .nil) =
      .ok (mkDirRecord "ws" [] []) ∧
    ([mkDirRecord "sub" [] []] : List Json).length =
      (FsList.cons (.dir "sub" .nil) .nil).countP FsEntry.isDir :=
  ⟨(walk_structure "ws" _).1 rfl rfl,
   ((walk_structure "x" (FsList.cons (.dir "sub" .nil) .nil)).2 [] _ rfl).2⟩

end GenMetadata
